import Mathlib

/-!
Shallow embedding of `pfsspy/interpolator.py` (`RegularGridInterpolator`):
multilinear interpolation on a regular grid with per-axis index search,
2^N corner blending, and bounds / fill-value handling.

Real numbers are modelled by `ℚ`; the dense value array is modelled by a
lookup function `List ℕ → V` on index tuples, where `V` is a `ℚ`-module so
that numpy's broadcasting of the scalar corner weight over the trailing
value dimensions is scalar multiplication.
-/

namespace Interpolator

/-- One grid axis: `points[i]` (1-dimensional case), as a list of rationals. -/
abbrev Axis := List ℚ

/-- `np.searchsorted(grid, x)` with the default `side='left'` on a sorted
array: the number of elements strictly below `x` (the leftmost insertion
point keeping the array sorted). -/
def searchsorted (g : Axis) (x : ℚ) : ℕ :=
  g.countP (fun a => decide (a < x))

/-- `_find_indices` per axis: `i = np.searchsorted(grid, x) - 1` followed by
the two clamps `i[i < 0] = 0` and `i[i > grid.size - 2] = grid.size - 2`
(truncated `Nat` subtraction performs the first clamp). -/
def findIndex (g : Axis) (x : ℚ) : ℕ :=
  min (searchsorted g x - 1) (g.length - 2)

/-- `_find_indices` per axis: `(x - grid[i]) / (grid[i + 1] - grid[i])`. -/
def normDist (g : Axis) (x : ℚ) (i : ℕ) : ℚ :=
  (x - g.getD i 0) / (g.getD (i + 1) 0 - g.getD i 0)

/-- `_find_indices`: the per-axis loop `for x, grid in zip(xi, self.grid)`
producing the cell index and normalized distance for one query point. -/
def findIndices (grid : List Axis) (x : List ℚ) : List (ℕ × ℚ) :=
  (grid.zip x).map (fun p => (findIndex p.1 p.2, normDist p.1 p.2 (findIndex p.1 p.2)))

/-- `_find_indices`: the `out_of_bounds` flag of one query point, the
accumulation `out_of_bounds += x < grid[0]; out_of_bounds += x > grid[-1]`
over the axes. -/
def outOfBounds (grid : List Axis) (x : List ℚ) : Bool :=
  (grid.zip x).any (fun p =>
    decide (p.2 < p.1.getD 0 0) || decide (p.1.getD (p.1.length - 1) 0 < p.2))

/-- `itertools.product(*[[i, i + 1] for i in indices])`: all 2^N corner index
tuples of the cell, first axis slowest (the product's order). -/
def cornerIndices : List ℕ → List (List ℕ)
  | [] => [[]]
  | i :: is => (cornerIndices is).map (i :: ·) ++ (cornerIndices is).map ((i + 1) :: ·)

/-- `_evaluate_linear`'s weight of one corner: the product over the axes of
`np.where(ei == i, 1 - yi, yi)`. -/
def cornerWeight : List ℕ → List ℕ → List ℚ → ℚ
  | e :: es, i :: is, t :: ts => (if e = i then 1 - t else t) * cornerWeight es is ts
  | _, _, _ => 1

variable {V : Type} [AddCommMonoid V] [Module ℚ V]

/-- `_evaluate_linear` for one query point: the accumulation
`values += np.asarray(self.values[edge_indices]) * weight[vslice]` over all
2^N corners; the broadcast over trailing value dimensions is `•`. -/
def evaluateLinear (values : List ℕ → V) (is : List ℕ) (ts : List ℚ) : V :=
  ((cornerIndices is).map (fun e => cornerWeight e is ts • values e)).sum

/-- The constructed interpolator: validated grid, value lookup, and the
bounds policy pair (`bounds_error`, `fill_value`). -/
structure Interp (V : Type) where
  grid : List Axis
  values : List ℕ → V
  boundsError : Bool
  fillValue : Option V

/-- `__call__`'s per-point blend, before any fill overwrite: `_find_indices`
produces the index and distance lists, `_evaluate_linear` blends them. -/
def blendPoint (itp : Interp V) (x : List ℚ) : V :=
  evaluateLinear itp.values ((findIndices itp.grid x).map Prod.fst)
    ((findIndices itp.grid x).map Prod.snd)

/-- `__call__`'s per-point result: the blend, overwritten by `fill_value`
when `not self.bounds_error and self.fill_value is not None` and the point
is flagged out of bounds (`result[out_of_bounds] = self.fill_value`). -/
def callPoint (itp : Interp V) (x : List ℚ) : V :=
  match itp.fillValue with
  | some c => if !itp.boundsError && outOfBounds itp.grid x then c else blendPoint itp x
  | none => blendPoint itp x

/-- Errors `__call__` can raise. -/
inductive EvalError where
  | QueryDimensionMismatch
  | OutOfDomain (dim : ℕ)
deriving DecidableEq

/-- The `bounds_error` pre-check of `__call__`: the first dimension `i` whose
column of the query batch has a coordinate strictly outside
`[grid[i][0], grid[i][-1]]` (the loop `for i, p in enumerate(xi.T)` raises at
the first such dimension). -/
def firstOOBDim (grid : List Axis) (xs : List (List ℚ)) : Option ℕ :=
  (List.range grid.length).find? (fun i =>
    xs.any (fun x =>
      decide (x.getD i 0 < (grid.getD i []).getD 0 0) ||
      decide ((grid.getD i []).getD ((grid.getD i []).length - 1) 0 < x.getD i 0)))

/-- `__call__` on a batch of query points: the query-dimension check
(`xi.shape[-1] != len(self.grid)`), then under `bounds_error` the
out-of-bounds pre-check raising `OutOfDomain`, then blending and the
fill overwrite per point. -/
def evaluate (itp : Interp V) (xs : List (List ℚ)) : Except EvalError (List V) :=
  if xs.any (fun x => x.length ≠ itp.grid.length) then
    .error .QueryDimensionMismatch
  else if itp.boundsError then
    match firstOOBDim itp.grid xs with
    | some i => .error (.OutOfDomain i)
    | none => .ok (xs.map (callPoint itp))
  else .ok (xs.map (callPoint itp))

instance {ε α : Type} [DecidableEq ε] [DecidableEq α] : DecidableEq (Except ε α) :=
  fun a b =>
    match a, b with
    | .ok x, .ok y => decidable_of_iff (x = y) (by simp)
    | .error x, .error y => decidable_of_iff (x = y) (by simp)
    | .ok _, .error _ => .isFalse (by simp)
    | .error _, .ok _ => .isFalse (by simp)

/-! ## The constructor `__init__` and its validation checks

Only the shapes and dtypes of the inputs decide which error `__init__`
raises, so the constructor is embedded over those: a numpy dtype is one of
the four kinds that matter to `np.can_cast(..., casting='same_kind')`, and a
`points` entry is a rank-1 or rank-2 array of rationals (rank 2 suffices to
exercise the `ndim == 1` check). -/

/-- The numeric kind of a numpy dtype, as far as the constructor's checks
observe it. -/
inductive DType where
  | bool
  | int
  | float
  | complex
deriving DecidableEq

/-- `np.issubdtype(dtype, np.inexact)`. -/
def DType.isInexact : DType → Bool
  | .float => true
  | .complex => true
  | _ => false

/-- Rank of a kind in numpy's kind hierarchy `bool < int < float < complex`. -/
def DType.rank : DType → ℕ
  | .bool => 0
  | .int => 1
  | .float => 2
  | .complex => 3

/-- `np.can_cast(a, b, casting='same_kind')`: a cast within a kind or to a
more general kind. -/
def canCastSameKind (a b : DType) : Bool :=
  a.rank ≤ b.rank

/-- One entry of `points`: a rank-1 or rank-2 numpy array of rationals. -/
inductive PointArr where
  | d1 (xs : List ℚ)
  | d2 (xss : List (List ℚ))
deriving DecidableEq

/-- `np.asarray(p).ndim`. -/
def PointArr.ndim : PointArr → ℕ
  | .d1 _ => 1
  | .d2 _ => 2

/-- `len(p)`: the length of the first axis. -/
def PointArr.len : PointArr → ℕ
  | .d1 xs => xs.length
  | .d2 xss => xss.length

/-- `np.all(np.diff(xs) > 0.)` along one row: every adjacent difference is
positive. -/
def allDiffPos : List ℚ → Bool
  | a :: b :: tl => decide (a < b) && allDiffPos (b :: tl)
  | _ => true

/-- `np.all(np.diff(p) > 0.)`: `np.diff` differences along the last axis, so
a rank-1 array must be strictly ascending and a rank-2 array must be
strictly ascending within each row. -/
def PointArr.strictAsc : PointArr → Bool
  | .d1 xs => allDiffPos xs
  | .d2 xss => xss.all (fun r => allDiffPos r)

/-- `allDiffPos` is the strict-ascent predicate. -/
theorem allDiffPos_iff_sorted (xs : List ℚ) :
    allDiffPos xs = true ↔ List.Chain' (· < ·) xs := by
  induction xs with
  | nil => simp [allDiffPos]
  | cons a tl ih =>
    cases tl with
    | nil => simp [allDiffPos]
    | cons b tl' =>
      rw [allDiffPos, Bool.and_eq_true, decide_eq_true_eq, ih, List.chain'_cons]

/-- The `ValueError`s `__init__` can raise, tagged by the spec's names. -/
inductive InitError where
  | DimensionMismatch
  | IncompatibleFillValue
  | NonMonotonicAxis (i : ℕ)
  | MalformedAxis (i : ℕ)
  | ShapeMismatch (i : ℕ)
deriving DecidableEq

/-- `__init__`'s `for i, p in enumerate(points)` loop: per axis, the strict
ascent check, then the `ndim == 1` check, then the `values.shape[i] == len(p)`
check. -/
def checkAxes (shape : List ℕ) : ℕ → List PointArr → Except InitError Unit
  | _, [] => .ok ()
  | i, p :: ps =>
    if ¬ p.strictAsc then .error (.NonMonotonicAxis i)
    else if p.ndim ≠ 1 then .error (.MalformedAxis i)
    else if shape.getD i 0 ≠ p.len then .error (.ShapeMismatch i)
    else checkAxes shape (i + 1) ps

/-- `__init__`: the `len(points) > values.ndim` check, the cast of a
non-inexact value dtype to float, the `np.can_cast(fill_value, values.dtype,
casting='same_kind')` check when `fill_value is not None`, then the per-axis
loop. `shape` is `values.shape` and `dt` is `values.dtype`; `fill` is the
dtype of the fill value, if any. -/
def init (points : List PointArr) (shape : List ℕ) (dt : DType)
    (fill : Option DType) : Except InitError Unit :=
  if points.length > shape.length then .error .DimensionMismatch
  else
    match fill with
    | some fdt =>
      if ¬ canCastSameKind fdt (if dt.isInexact then dt else .float) then
        .error .IncompatibleFillValue
      else checkAxes shape 0 points
    | none => checkAxes shape 0 points

/-! ## Lemmas about sorted axes and the index search -/

/-- A strictly ascending axis: what `np.all(np.diff(p) > 0.)` validates. -/
def axisSorted (g : Axis) : Prop := List.Chain' (· < ·) g

instance (g : Axis) : Decidable (axisSorted g) :=
  decidable_of_iff (List.Pairwise (· < ·) g)
    (by rw [axisSorted, List.chain'_iff_pairwise])

theorem axisSorted.pairwise {g : Axis} (hs : axisSorted g) :
    List.Pairwise (· < ·) g :=
  List.chain'_iff_pairwise.mp hs

theorem sorted_getD_lt {g : Axis} (hs : axisSorted g) {i j : ℕ} (hij : i < j)
    (hj : j < g.length) : g.getD i 0 < g.getD j 0 := by
  rw [List.getD_eq_getElem g 0 (lt_trans hij hj), List.getD_eq_getElem g 0 hj]
  exact List.pairwise_iff_getElem.mp hs.pairwise i j (lt_trans hij hj) hj hij

theorem sorted_getD_le {g : Axis} (hs : axisSorted g) {i j : ℕ} (hij : i ≤ j)
    (hj : j < g.length) : g.getD i 0 ≤ g.getD j 0 := by
  rcases eq_or_lt_of_le hij with h | h
  · rw [h]
  · exact le_of_lt (sorted_getD_lt hs h hj)

/-- On a sorted axis, the insertion point characterizes order against the
axis entries: entry `j` is below `x` exactly when `j` is left of the
insertion point. -/
theorem getD_lt_iff_lt_searchsorted {g : Axis} (hs : axisSorted g) (x : ℚ) :
    ∀ j < g.length, (g.getD j 0 < x ↔ j < searchsorted g x) := by
  induction g with
  | nil => intro j hj; simp at hj
  | cons a tl ih =>
    have hp := hs.pairwise
    rcases List.pairwise_cons.mp hp with ⟨ha, htl⟩
    intro j hj
    unfold searchsorted
    rw [List.countP_cons]
    simp only [decide_eq_true_eq]
    by_cases hax : a < x
    · rw [if_pos hax]
      cases j with
      | zero =>
        rw [List.getD_cons_zero]
        exact iff_of_true hax (by omega)
      | succ k =>
        have hk : k < tl.length := by simpa using hj
        have hiff := ih (List.chain'_iff_pairwise.mpr htl) k hk
        simp only [searchsorted] at hiff
        rw [List.getD_cons_succ, hiff]
        omega
    · have hxa : x ≤ a := not_lt.mp hax
      have hcount : tl.countP (fun b => decide (b < x)) = 0 := by
        apply List.countP_eq_zero.mpr
        intro b hb
        simp only [decide_eq_true_eq]
        exact not_lt.mpr (le_trans hxa (le_of_lt (ha b hb)))
      rw [if_neg hax, hcount]
      cases j with
      | zero =>
        rw [List.getD_cons_zero]
        exact iff_of_false hax (by omega)
      | succ k =>
        have hk : k < tl.length := by simpa using hj
        rw [List.getD_cons_succ]
        refine iff_of_false ?_ (by omega)
        refine not_lt.mpr (le_trans hxa (le_of_lt (ha _ ?_)))
        rw [List.getD_eq_getElem tl 0 hk]
        exact List.getElem_mem hk

theorem searchsorted_le_length (g : Axis) (x : ℚ) :
    searchsorted g x ≤ g.length :=
  List.countP_le_length _

/-- At the grid node `g[k]` the insertion point is exactly `k`. -/
theorem searchsorted_node {g : Axis} (hs : axisSorted g) {k : ℕ}
    (hk : k < g.length) : searchsorted g (g.getD k 0) = k := by
  have hiff := getD_lt_iff_lt_searchsorted hs (g.getD k 0)
  have hub : ¬ k < searchsorted g (g.getD k 0) := by
    intro h
    exact absurd ((hiff k hk).mpr h) (lt_irrefl _)
  cases k with
  | zero => omega
  | succ m =>
    have hlb : m < searchsorted g (g.getD (m + 1) 0) :=
      (hiff m (lt_trans (Nat.lt_succ_self m) hk)).mp
        (sorted_getD_lt hs (Nat.lt_succ_self m) hk)
    omega

/-- Every query is clamped into a valid cell index. -/
theorem findIndex_le (g : Axis) (x : ℚ) : findIndex g x ≤ g.length - 2 :=
  min_le_right _ _

/-- Adjacent axis entries of a valid cell index are strictly ordered. -/
theorem cell_edge_lt {g : Axis} (hs : axisSorted g) (h2 : 2 ≤ g.length) {i : ℕ}
    (hi : i ≤ g.length - 2) : g.getD i 0 < g.getD (i + 1) 0 :=
  sorted_getD_lt hs (Nat.lt_succ_self i) (by omega)

/-- At the left boundary node the cell is `0` with distance `0`. -/
theorem findIndex_node_zero {g : Axis} (hs : axisSorted g) (h2 : 2 ≤ g.length) :
    findIndex g (g.getD 0 0) = 0 ∧ normDist g (g.getD 0 0) 0 = 0 := by
  constructor
  · unfold findIndex
    rw [searchsorted_node hs (by omega)]
    omega
  · unfold normDist
    rw [sub_self, zero_div]

/-- At an interior or right-boundary node `g[k + 1]` the cell is `k` with
distance `1`: `searchsorted`'s left-insertion convention assigns a node to
the cell on its left. -/
theorem findIndex_node_succ {g : Axis} (hs : axisSorted g) (h2 : 2 ≤ g.length)
    {k : ℕ} (hk : k + 1 < g.length) :
    findIndex g (g.getD (k + 1) 0) = k ∧ normDist g (g.getD (k + 1) 0) k = 1 := by
  have hlt : g.getD k 0 < g.getD (k + 1) 0 :=
    sorted_getD_lt hs (Nat.lt_succ_self k) hk
  constructor
  · unfold findIndex
    rw [searchsorted_node hs hk]
    omega
  · unfold normDist
    exact div_self (ne_of_gt (sub_pos.mpr hlt))

/-- The in-bounds cell property: the clamped index brackets the query in the
closed interval `[g[i], g[i + 1]]`. -/
theorem findIndex_cell {g : Axis} (hs : axisSorted g) (h2 : 2 ≤ g.length)
    {x : ℚ} (hlo : g.getD 0 0 ≤ x) (hhi : x ≤ g.getD (g.length - 1) 0) :
    g.getD (findIndex g x) 0 ≤ x ∧ x ≤ g.getD (findIndex g x + 1) 0 := by
  have hiff := getD_lt_iff_lt_searchsorted hs x
  have hplen : searchsorted g x ≤ g.length := searchsorted_le_length g x
  have hlast : ¬ (g.length - 1 < searchsorted g x) := by
    intro h
    exact absurd ((hiff (g.length - 1) (by omega)).mpr h) (not_lt.mpr hhi)
  by_cases hp : searchsorted g x = 0
  · have hx0 : ¬ (g.getD 0 0 < x) := by
      intro h
      have := (hiff 0 (by omega)).mp h
      omega
    have hxeq : x = g.getD 0 0 := le_antisymm (not_lt.mp hx0) hlo
    have hfi : findIndex g x = 0 := by
      unfold findIndex
      rw [hp]
      omega
    rw [hfi, hxeq]
    exact ⟨le_refl _, le_of_lt (cell_edge_lt hs h2 (by omega))⟩
  · have hp1 : 1 ≤ searchsorted g x := by omega
    have hfi : findIndex g x = searchsorted g x - 1 := by
      unfold findIndex
      omega
    constructor
    · rw [hfi]
      exact le_of_lt ((hiff (searchsorted g x - 1) (by omega)).mpr (by omega))
    · rw [hfi]
      have hps : searchsorted g x - 1 + 1 = searchsorted g x := by omega
      rw [hps]
      by_cases hpl : searchsorted g x < g.length
      · have := (hiff (searchsorted g x) hpl)
        exact not_lt.mp (fun h => absurd (this.mp h) (lt_irrefl _))
      · omega

/-- The normalized distance of an in-bounds query lies in `[0, 1]`. -/
theorem normDist_unit {g : Axis} (hs : axisSorted g) (h2 : 2 ≤ g.length)
    {x : ℚ} (hlo : g.getD 0 0 ≤ x) (hhi : x ≤ g.getD (g.length - 1) 0) :
    0 ≤ normDist g x (findIndex g x) ∧ normDist g x (findIndex g x) ≤ 1 := by
  obtain ⟨hl, hr⟩ := findIndex_cell hs h2 hlo hhi
  have hden : (0 : ℚ) < g.getD (findIndex g x + 1) 0 - g.getD (findIndex g x) 0 :=
    sub_pos.mpr (cell_edge_lt hs h2 (findIndex_le g x))
  unfold normDist
  constructor
  · exact div_nonneg (sub_nonneg.mpr hl) (le_of_lt hden)
  · rw [div_le_one hden]
    exact sub_le_sub_right hr _

/-- Below the domain the cell clamps to `0` and the distance is negative. -/
theorem findIndex_below {g : Axis} (hs : axisSorted g) (h2 : 2 ≤ g.length)
    {x : ℚ} (hx : x < g.getD 0 0) :
    findIndex g x = 0 ∧ normDist g x 0 < 0 := by
  have hp : searchsorted g x = 0 := by
    apply List.countP_eq_zero.mpr
    intro b hb
    simp only [decide_eq_true_eq]
    obtain ⟨n, hn, hbn⟩ := List.mem_iff_getElem.mp hb
    have : g.getD 0 0 ≤ b := by
      rw [← hbn, ← List.getD_eq_getElem g 0 hn]
      exact sorted_getD_le hs (Nat.zero_le n) hn
    exact not_lt.mpr (le_of_lt (lt_of_lt_of_le hx this))
  have hfi : findIndex g x = 0 := by
    unfold findIndex
    rw [hp]
    omega
  refine ⟨hfi, ?_⟩
  unfold normDist
  apply div_neg_of_neg_of_pos
  · exact sub_neg.mpr hx
  · exact sub_pos.mpr (cell_edge_lt hs h2 (by omega))

/-- Above the domain the cell clamps to `m - 2` and the distance exceeds 1. -/
theorem findIndex_above {g : Axis} (hs : axisSorted g) (h2 : 2 ≤ g.length)
    {x : ℚ} (hx : g.getD (g.length - 1) 0 < x) :
    findIndex g x = g.length - 2 ∧ 1 < normDist g x (g.length - 2) := by
  have hp : searchsorted g x = g.length := by
    apply List.countP_eq_length.mpr
    intro b hb
    simp only [decide_eq_true_eq]
    obtain ⟨n, hn, hbn⟩ := List.mem_iff_getElem.mp hb
    have : b ≤ g.getD (g.length - 1) 0 := by
      rw [← hbn, ← List.getD_eq_getElem g 0 hn]
      exact sorted_getD_le hs (by omega) (by omega)
    exact lt_of_le_of_lt this hx
  have hfi : findIndex g x = g.length - 2 := by
    unfold findIndex
    rw [hp]
    omega
  refine ⟨hfi, ?_⟩
  have hsucc : g.length - 2 + 1 = g.length - 1 := by omega
  have hden : (0 : ℚ) < g.getD (g.length - 2 + 1) 0 - g.getD (g.length - 2) 0 :=
    sub_pos.mpr (cell_edge_lt hs h2 (le_refl _))
  unfold normDist
  rw [lt_div_iff₀ hden, one_mul, hsucc]
  exact sub_lt_sub_right hx _

/-! ## Lemmas about the corner blend -/

section Blend

variable {V : Type} [AddCommMonoid V] [Module ℚ V]

/-- With no axes left the blend is the single corner's value. -/
theorem evaluateLinear_nil (v : List ℕ → V) (ts : List ℚ) :
    evaluateLinear v [] ts = v [] := by
  simp [evaluateLinear, cornerIndices, cornerWeight]

/-- The corner sum splits along the first axis into the low-edge and
high-edge halves, weighted `1 - t` and `t`. -/
theorem evaluateLinear_cons (v : List ℕ → V) (i : ℕ) (is : List ℕ) (t : ℚ)
    (ts : List ℚ) :
    evaluateLinear v (i :: is) (t :: ts) =
      (1 - t) • evaluateLinear (fun e => v (i :: e)) is ts +
      t • evaluateLinear (fun e => v ((i + 1) :: e)) is ts := by
  unfold evaluateLinear
  rw [cornerIndices, List.map_append, List.sum_append, List.map_map, List.map_map]
  congr 1
  · rw [List.smul_sum, List.map_map]
    refine congrArg List.sum (List.map_congr_left ?_)
    intro e _
    simp only [Function.comp_apply]
    rw [cornerWeight, if_pos rfl, mul_smul]
  · rw [List.smul_sum, List.map_map]
    refine congrArg List.sum (List.map_congr_left ?_)
    intro e _
    simp only [Function.comp_apply]
    rw [cornerWeight, if_neg (Nat.succ_ne_self i), mul_smul]

/-- The coordinates of the grid node with index tuple `ks`. -/
def nodeCoords (grid : List Axis) (ks : List ℕ) : List ℚ :=
  List.zipWith (fun (g : Axis) k => g.getD k 0) grid ks

/-- Blending a query that sits exactly on a grid node returns the node's
stored value: each axis contributes distance `0` or `1`, so exactly one
corner carries weight `1`. -/
theorem blend_node {grid : List Axis} {ks : List ℕ}
    (hf : List.Forall₂ (fun k (g : Axis) => k < g.length) ks grid) :
    (∀ g ∈ grid, axisSorted g ∧ 2 ≤ g.length) →
    ∀ (v : List ℕ → V),
      evaluateLinear v
        ((findIndices grid (nodeCoords grid ks)).map Prod.fst)
        ((findIndices grid (nodeCoords grid ks)).map Prod.snd) = v ks := by
  induction hf with
  | nil =>
    intro _ v
    simp [nodeCoords, findIndices, evaluateLinear_nil]
  | @cons k g ks' grid' hk _ ih =>
    intro hvalid v
    obtain ⟨hs, h2⟩ := hvalid g (List.mem_cons_self g grid')
    have hvalid' : ∀ g' ∈ grid', axisSorted g' ∧ 2 ≤ g'.length :=
      fun g' hg' => hvalid g' (List.mem_cons_of_mem g hg')
    have hx : nodeCoords (g :: grid') (k :: ks') =
        g.getD k 0 :: nodeCoords grid' ks' := by
      simp [nodeCoords]
    have hsplit : findIndices (g :: grid') (g.getD k 0 :: nodeCoords grid' ks') =
        (findIndex g (g.getD k 0), normDist g (g.getD k 0) (findIndex g (g.getD k 0))) ::
          findIndices grid' (nodeCoords grid' ks') := by
      simp [findIndices]
    rw [hx, hsplit]
    simp only [List.map_cons]
    cases k with
    | zero =>
      obtain ⟨hi, ht⟩ := findIndex_node_zero hs h2
      rw [hi, ht, evaluateLinear_cons, ih hvalid', ih hvalid', sub_zero, one_smul,
        zero_smul, add_zero]
    | succ m =>
      obtain ⟨hi, ht⟩ := findIndex_node_succ hs h2 hk
      rw [hi, ht, evaluateLinear_cons, ih hvalid', ih hvalid', sub_self, zero_smul,
        one_smul, zero_add]

/-- The blend with distances in `[0, 1]` is a convex combination of corner
values: any bound enclosing all 2^N corner values encloses the result. -/
theorem evaluateLinear_bounds :
    ∀ (is : List ℕ) (ts : List ℚ) (v : List ℕ → ℚ) (lo hi : ℚ),
      ts.length = is.length →
      (∀ t ∈ ts, 0 ≤ t ∧ t ≤ 1) →
      (∀ e ∈ cornerIndices is, lo ≤ v e ∧ v e ≤ hi) →
      lo ≤ evaluateLinear v is ts ∧ evaluateLinear v is ts ≤ hi := by
  intro is
  induction is with
  | nil =>
    intro ts v lo hi _ _ hv
    rw [evaluateLinear_nil]
    exact hv [] (by simp [cornerIndices])
  | cons i is ih =>
    intro ts v lo hi hlen hts hv
    cases ts with
    | nil => simp at hlen
    | cons t ts' =>
      rw [evaluateLinear_cons]
      have h01 := hts t (List.mem_cons_self _ _)
      have hts' : ∀ u ∈ ts', 0 ≤ u ∧ u ≤ 1 :=
        fun u hu => hts u (List.mem_cons_of_mem _ hu)
      have hlen' : ts'.length = is.length := by simpa using hlen
      have hlo1 := ih ts' (fun e => v (i :: e)) lo hi hlen' hts'
        (fun e he => hv (i :: e) (by
          rw [cornerIndices]
          exact List.mem_append_left _ (List.mem_map_of_mem _ he)))
      have hhi1 := ih ts' (fun e => v ((i + 1) :: e)) lo hi hlen' hts'
        (fun e he => hv ((i + 1) :: e) (by
          rw [cornerIndices]
          exact List.mem_append_right _ (List.mem_map_of_mem _ he)))
      rw [smul_eq_mul, smul_eq_mul]
      constructor
      · nlinarith [hlo1.1, hhi1.1, h01.1, h01.2]
      · nlinarith [hlo1.2, hhi1.2, h01.1, h01.2]

/-- Summing a list of functions pointwise. -/
theorem list_sum_apply {γ : Type} (l : List (γ → ℚ)) (b : γ) :
    l.sum b = (l.map (fun f => f b)).sum := by
  induction l with
  | nil => rfl
  | cons f l ih => rw [List.map_cons, List.sum_cons, List.sum_cons, Pi.add_apply, ih]

/-- The blend of function-valued samples (trailing value dimensions) is the
scalar blend of each component: the corner weight multiplies every trailing
element by the same per-point scalar. -/
theorem evaluateLinear_apply {γ : Type} (v : List ℕ → γ → ℚ) (is : List ℕ)
    (ts : List ℚ) (b : γ) :
    evaluateLinear v is ts b = evaluateLinear (fun e => v e b) is ts := by
  unfold evaluateLinear
  rw [list_sum_apply, List.map_map]
  refine congrArg List.sum (List.map_congr_left ?_)
  intro e _
  simp [Pi.smul_apply]

end Blend

/-! ## The spec's formulation of the corner blend

The spec describes a corner as a choice of low/high edge per axis and the
blend as the weighted sum over all 2^N such choices. -/

/-- All low/high edge choices over `n` axes. -/
def choiceVectors : ℕ → List (List Bool)
  | 0 => [[]]
  | n + 1 => (choiceVectors n).map (false :: ·) ++ (choiceVectors n).map (true :: ·)

/-- Modelled from the spec: the weight of a corner choice, "the product over
axes of `(1 - t)` if the corner picks the low edge on that axis, or `t` if
it picks the high edge". -/
def specWeight (c : List Bool) (ts : List ℚ) : ℚ :=
  ((c.zip ts).map (fun p => if p.1 then p.2 else 1 - p.2)).prod

/-- Modelled from the spec: the index tuple of a corner choice, edge `i` on
the low side and `i + 1` on the high side per axis. -/
def specCorner (c : List Bool) (is : List ℕ) : List ℕ :=
  (c.zip is).map (fun p => if p.1 then p.2 + 1 else p.2)

section SpecBlend

variable {V : Type} [AddCommMonoid V] [Module ℚ V]

/-- Modelled from the spec: `sum(corner_weight * value_array[corner_indices])`
across all 2^N corners. -/
def specBlend (v : List ℕ → V) (is : List ℕ) (ts : List ℚ) : V :=
  ((choiceVectors is.length).map (fun c => specWeight c ts • v (specCorner c is))).sum

theorem specBlend_nil (v : List ℕ → V) (ts : List ℚ) :
    specBlend v [] ts = v [] := by
  simp [specBlend, choiceVectors, specWeight, specCorner]

theorem specBlend_cons (v : List ℕ → V) (i : ℕ) (is : List ℕ) (t : ℚ)
    (ts : List ℚ) :
    specBlend v (i :: is) (t :: ts) =
      (1 - t) • specBlend (fun e => v (i :: e)) is ts +
      t • specBlend (fun e => v ((i + 1) :: e)) is ts := by
  unfold specBlend
  simp only [List.length_cons]
  rw [choiceVectors, List.map_append, List.sum_append, List.map_map, List.map_map]
  congr 1
  · rw [List.smul_sum, List.map_map]
    refine congrArg List.sum (List.map_congr_left ?_)
    intro c _
    simp only [Function.comp_apply, specWeight, specCorner, List.zip_cons_cons,
      List.map_cons, List.prod_cons, if_neg Bool.false_ne_true, Bool.false_eq_true,
      if_false, mul_smul]
  · rw [List.smul_sum, List.map_map]
    refine congrArg List.sum (List.map_congr_left ?_)
    intro c _
    simp only [Function.comp_apply, specWeight, specCorner, List.zip_cons_cons,
      List.map_cons, List.prod_cons, if_pos rfl, if_true, mul_smul]

end SpecBlend

/-! ## Out-of-bounds characterizations -/

/-- Query point `x` lies strictly outside `[axis[0], axis[-1]]` on dimension
`j`. -/
def strictlyOutsideDim (grid : List Axis) (x : List ℚ) (j : ℕ) : Prop :=
  x.getD j 0 < (grid.getD j []).getD 0 0 ∨
    (grid.getD j []).getD ((grid.getD j []).length - 1) 0 < x.getD j 0

instance (grid : List Axis) (x : List ℚ) (j : ℕ) :
    Decidable (strictlyOutsideDim grid x j) := by
  unfold strictlyOutsideDim; infer_instance

/-- The per-point `out_of_bounds` flag is set exactly when the point lies
strictly outside the domain on some dimension. -/
theorem outOfBounds_iff {grid : List Axis} {x : List ℚ}
    (hlen : x.length = grid.length) :
    outOfBounds grid x = true ↔ ∃ j < grid.length, strictlyOutsideDim grid x j := by
  unfold outOfBounds
  rw [List.any_eq_true]
  constructor
  · rintro ⟨p, hp, hcond⟩
    obtain ⟨n, hn, hpn⟩ := List.mem_iff_getElem.mp hp
    have hng : n < grid.length := by
      rw [List.length_zip] at hn
      omega
    have hnx : n < x.length := by omega
    refine ⟨n, hng, ?_⟩
    rw [List.getElem_zip] at hpn
    unfold strictlyOutsideDim
    rw [List.getD_eq_getElem x 0 hnx, List.getD_eq_getElem grid [] hng]
    subst hpn
    simpa [Bool.or_eq_true, decide_eq_true_eq] using hcond
  · rintro ⟨j, hj, hout⟩
    have hjx : j < x.length := by omega
    refine ⟨(grid[j], x[j]), List.mem_iff_getElem.mpr ⟨j, ?_, ?_⟩, ?_⟩
    · rw [List.length_zip]
      omega
    · rw [List.getElem_zip]
    · unfold strictlyOutsideDim at hout
      rw [List.getD_eq_getElem x 0 hjx, List.getD_eq_getElem grid [] hj] at hout
      simpa [Bool.or_eq_true, decide_eq_true_eq] using hout

/-- The dimension loop of the `bounds_error` pre-check tests exactly whether
some query point is strictly outside on that dimension. -/
theorem firstOOBDim_pred (grid : List Axis) (xs : List (List ℚ)) (i : ℕ) :
    (xs.any (fun x =>
        decide (x.getD i 0 < (grid.getD i []).getD 0 0) ||
        decide ((grid.getD i []).getD ((grid.getD i []).length - 1) 0 < x.getD i 0))
      = true) ↔ ∃ x ∈ xs, strictlyOutsideDim grid x i := by
  rw [List.any_eq_true]
  unfold strictlyOutsideDim
  simp [Bool.or_eq_true, decide_eq_true_eq]

/-- The pre-check finds no dimension exactly when every query point is
inside the closed domain on every dimension. -/
theorem firstOOBDim_eq_none (grid : List Axis) (xs : List (List ℚ)) :
    firstOOBDim grid xs = none ↔
      ∀ j < grid.length, ∀ x ∈ xs, ¬ strictlyOutsideDim grid x j := by
  unfold firstOOBDim
  rw [List.find?_eq_none]
  constructor
  · intro h j hj x hx hout
    exact absurd ((firstOOBDim_pred grid xs j).mpr ⟨x, hx, hout⟩)
      (h j (List.mem_range.mpr hj))
  · intro h i hi hcond
    obtain ⟨x, hx, hout⟩ := (firstOOBDim_pred grid xs i).mp hcond
    exact h i (List.mem_range.mp hi) x hx hout

/-- When the pre-check raises, the dimension it names has an offending
query point. -/
theorem firstOOBDim_some {grid : List Axis} {xs : List (List ℚ)} {i : ℕ}
    (h : firstOOBDim grid xs = some i) :
    i < grid.length ∧ ∃ x ∈ xs, strictlyOutsideDim grid x i := by
  unfold firstOOBDim at h
  constructor
  · exact List.mem_range.mp (List.mem_of_find?_eq_some h)
  · have hp := List.find?_some h
    exact (firstOOBDim_pred grid xs i).mp hp

theorem nodeCoords_length {grid : List Axis} {ks : List ℕ}
    (h : ks.length = grid.length) :
    (nodeCoords grid ks).length = grid.length := by
  unfold nodeCoords
  rw [List.length_zipWith]
  omega

theorem nodeCoords_getD {grid : List Axis} {ks : List ℕ}
    (h : ks.length = grid.length) {j : ℕ} (hj : j < grid.length) :
    (nodeCoords grid ks).getD j 0 = (grid.getD j []).getD (ks.getD j 0) 0 := by
  have hjn : j < (nodeCoords grid ks).length := by rw [nodeCoords_length h]; omega
  rw [List.getD_eq_getElem _ 0 hjn, List.getD_eq_getElem grid [] hj,
    List.getD_eq_getElem ks 0 (by omega)]
  unfold nodeCoords
  rw [List.getElem_zipWith]

/-- A grid node lies inside the closed domain on every dimension. -/
theorem node_inside {grid : List Axis} {ks : List ℕ}
    (hvalid : ∀ g ∈ grid, axisSorted g ∧ 2 ≤ g.length)
    (hk : List.Forall₂ (fun k (g : Axis) => k < g.length) ks grid) :
    ∀ j < grid.length, ¬ strictlyOutsideDim grid (nodeCoords grid ks) j := by
  intro j hj hout
  have hlen := hk.length_eq
  obtain ⟨_, hget⟩ := List.forall₂_iff_get.mp hk
  have hkj : ks.getD j 0 < (grid.getD j []).length := by
    rw [List.getD_eq_getElem ks 0 (show j < ks.length by omega),
      List.getD_eq_getElem grid [] hj]
    have := hget j (by omega) hj
    simpa [List.get_eq_getElem] using this
  obtain ⟨hs, h2⟩ := hvalid (grid.getD j []) (by
    rw [List.getD_eq_getElem grid [] hj]
    exact List.getElem_mem hj)
  rw [strictlyOutsideDim, nodeCoords_getD hlen hj] at hout
  rcases hout with h | h
  · exact absurd h (not_lt.mpr (sorted_getD_le hs (Nat.zero_le _) hkj))
  · exact absurd h (not_lt.mpr (sorted_getD_le hs (by omega) (by omega)))

section EvaluateLemmas

variable {V : Type} [AddCommMonoid V] [Module ℚ V]

/-- When all query points have the right dimension and none is out of
bounds, `__call__` reaches the blending stage for every point. -/
theorem evaluate_passes (itp : Interp V) (xs : List (List ℚ))
    (hlen : ∀ x ∈ xs, x.length = itp.grid.length)
    (hin : ∀ j < itp.grid.length, ∀ x ∈ xs, ¬ strictlyOutsideDim itp.grid x j) :
    evaluate itp xs = .ok (xs.map (callPoint itp)) := by
  unfold evaluate
  have h1 : xs.any (fun x => decide (x.length ≠ itp.grid.length)) = false := by
    rw [List.any_eq_false]
    intro x hx
    simp [hlen x hx]
  rw [h1]
  simp only [Bool.false_eq_true, if_false]
  cases hbe : itp.boundsError
  · simp
  · simp only [if_true]
    rw [(firstOOBDim_eq_none _ _).mpr hin]

/-- At a grid node the per-point result is the stored value, under any
bounds policy. -/
theorem callPoint_node (itp : Interp V)
    (hvalid : ∀ g ∈ itp.grid, axisSorted g ∧ 2 ≤ g.length)
    {ks : List ℕ}
    (hk : List.Forall₂ (fun k (g : Axis) => k < g.length) ks itp.grid) :
    callPoint itp (nodeCoords itp.grid ks) = itp.values ks := by
  have hblend : blendPoint itp (nodeCoords itp.grid ks) = itp.values ks := by
    unfold blendPoint
    exact blend_node hk hvalid itp.values
  cases hfv : itp.fillValue with
  | none => rw [callPoint, hfv]; exact hblend
  | some c =>
    rw [callPoint, hfv]
    have hoob : outOfBounds itp.grid (nodeCoords itp.grid ks) = false := by
      rw [Bool.eq_false_iff]
      intro h
      obtain ⟨j, hj, hout⟩ := (outOfBounds_iff (nodeCoords_length hk.length_eq)).mp h
      exact node_inside hvalid hk j hj hout
    rw [hoob, Bool.and_false]
    simp only [Bool.false_eq_true, if_false]
    exact hblend

end EvaluateLemmas

/-! ## Constructor-loop lemmas -/

/-- A non-monotonic axis anywhere in the list makes the per-axis loop fail
(with some error, at the first failing check). -/
theorem checkAxes_no_ok (shape : List ℕ) :
    ∀ (points : List PointArr) (i : ℕ) (p : PointArr), p ∈ points →
      ¬ p.strictAsc = true → ∀ u, checkAxes shape i points ≠ .ok u := by
  intro points
  induction points with
  | nil => intro i p hp; simp at hp
  | cons q qs ih =>
    intro i p hp hmono u
    rw [checkAxes]
    rcases List.mem_cons.mp hp with h | h
    · subst h
      rw [if_pos hmono]
      simp
    · by_cases h1 : ¬ q.strictAsc = true
      · rw [if_pos h1]; simp
      · rw [if_neg h1]
        by_cases h2 : q.ndim ≠ 1
        · rw [if_pos h2]; simp
        · rw [if_neg h2]
          by_cases h3 : shape.getD i 0 ≠ q.len
          · rw [if_pos h3]; simp
          · rw [if_neg h3]
            exact ih (i + 1) p h hmono u

/-- Axes that pass all their checks advance the loop counter past them. -/
theorem checkAxes_append (shape : List ℕ) :
    ∀ (pre : List PointArr) (i : ℕ), checkAxes shape i pre = .ok () →
      ∀ l, checkAxes shape i (pre ++ l) = checkAxes shape (i + pre.length) l := by
  intro pre
  induction pre with
  | nil => intro i _ l; simp
  | cons q qs ih =>
    intro i hok l
    rw [checkAxes] at hok
    by_cases h1 : ¬ q.strictAsc = true
    · rw [if_pos h1] at hok; simp at hok
    · rw [if_neg h1] at hok
      by_cases h2 : q.ndim ≠ 1
      · rw [if_pos h2] at hok; simp at hok
      · rw [if_neg h2] at hok
        by_cases h3 : shape.getD i 0 ≠ q.len
        · rw [if_pos h3] at hok; simp at hok
        · rw [if_neg h3] at hok
          rw [List.cons_append, checkAxes, if_neg h1, if_neg h2, if_neg h3,
            ih (i + 1) hok l, List.length_cons]
          congr 1
          omega

/-- `init` with `fill_value=None` and a passing axis-count check runs the
per-axis loop. -/
theorem init_fill_none (points : List PointArr) (shape : List ℕ) (dt : DType)
    (h : ¬ points.length > shape.length) :
    init points shape dt none = checkAxes shape 0 points := by
  unfold init
  rw [if_neg h]

/-- `init` with a fill value and a passing axis-count check runs the
compatibility check, then the per-axis loop. -/
theorem init_fill_some (points : List PointArr) (shape : List ℕ) (dt : DType)
    (fdt : DType) (h : ¬ points.length > shape.length) :
    init points shape dt (some fdt) =
      if ¬ canCastSameKind fdt (if dt.isInexact then dt else DType.float) = true then
        .error .IncompatibleFillValue
      else checkAxes shape 0 points := by
  unfold init
  rw [if_neg h]

/-! ## Shared concrete instances for witnesses -/

/-- The spec's 1-D worked example: values `[0, 10, 20]` looked up by the
leading index. -/
def exVals : List ℕ → ℚ := fun e => ([0, 10, 20] : List ℚ).getD (e.getD 0 0) 0

/-- The spec's 1-D worked example interpolator on axis `[0, 1, 2]`. -/
def exItp : Interp ℚ := ⟨[[0, 1, 2]], exVals, true, none⟩

/-- A grid spanning `[0, 5]` with `bounds_error=True`. -/
def exItpE : Interp ℚ := ⟨[[0, 5]], fun _ => 0, true, none⟩

/-! ## The claims -/

/-- C1: For every validly constructed interpolator and every query point
whose coordinates equal a grid node exactly, `Evaluate` returns exactly the
stored value at that node, with trailing value dimensions (the `ℚ`-module
`V`) passed through unchanged — under any bounds policy. -/
theorem c1_node_exactness {V : Type} [AddCommMonoid V] [Module ℚ V]
    (itp : Interp V)
    (hvalid : ∀ g ∈ itp.grid, axisSorted g ∧ 2 ≤ g.length)
    (ks : List ℕ)
    (hk : List.Forall₂ (fun k (g : Axis) => k < g.length) ks itp.grid) :
    evaluate itp [nodeCoords itp.grid ks] = .ok [itp.values ks] := by
  have hlen : ∀ x ∈ [nodeCoords itp.grid ks], x.length = itp.grid.length := by
    intro x hx
    rw [List.mem_singleton] at hx
    subst hx
    exact nodeCoords_length hk.length_eq
  have hin : ∀ j < itp.grid.length, ∀ x ∈ [nodeCoords itp.grid ks],
      ¬ strictlyOutsideDim itp.grid x j := by
    intro j hj x hx
    rw [List.mem_singleton] at hx
    subst hx
    exact node_inside hvalid hk j hj
  rw [evaluate_passes itp _ hlen hin, List.map_singleton,
    callPoint_node itp hvalid hk]

/-- C1 witness: on axis `[0, 1, 2]` with values `[0, 10, 20]`, querying the
node `1` returns exactly `10`. -/
theorem c1_node_exactness_witness :
    (∀ g ∈ exItp.grid, axisSorted g ∧ 2 ≤ g.length) ∧
    List.Forall₂ (fun k (g : Axis) => k < g.length) [1] exItp.grid ∧
    evaluate exItp [nodeCoords exItp.grid [1]] = .ok [exItp.values [1]] :=
  ⟨by decide, by decide, c1_node_exactness exItp (by decide) [1] (by decide)⟩

/-- Each corner blend equals the spec's sum over low/high choice vectors. -/
theorem evaluateLinear_eq_specBlend {V : Type} [AddCommMonoid V] [Module ℚ V] :
    ∀ (is : List ℕ) (ts : List ℚ) (v : List ℕ → V), ts.length = is.length →
      evaluateLinear v is ts = specBlend v is ts := by
  intro is
  induction is with
  | nil =>
    intro ts v _
    rw [evaluateLinear_nil, specBlend_nil]
  | cons i is ih =>
    intro ts v hlen
    cases ts with
    | nil => simp at hlen
    | cons t ts' =>
      have hlen' : ts'.length = is.length := by simpa using hlen
      rw [evaluateLinear_cons, specBlend_cons, ih ts' _ hlen', ih ts' _ hlen']

/-- C2: The blend is the sum over all 2^N corners of the corner value
weighted by the product of per-axis factors (`1 - t` low, `t` high), with
trailing value dimensions scaled by the same per-point scalar; and the 1-D
worked example: axis `[0,1,2]`, values `[0,10,20]` give `Evaluate(0.5) = 5`,
`Evaluate(1.5) = 15`, `Evaluate([0.5, 1.25]) = [5, 12.5]`. -/
theorem c2_corner_blend :
    (∀ (V : Type) [AddCommMonoid V] [Module ℚ V]
      (v : List ℕ → V) (is : List ℕ) (ts : List ℚ), ts.length = is.length →
        evaluateLinear v is ts = specBlend v is ts) ∧
    evaluate exItp [[1/2]] = .ok [5] ∧
    evaluate exItp [[3/2]] = .ok [15] ∧
    evaluate exItp [[1/2], [5/4]] = .ok [5, 25/2] := by
  refine ⟨?_, ?_, ?_, ?_⟩
  · intro V _ _ v is ts hlen
    exact evaluateLinear_eq_specBlend is ts v hlen
  · norm_num [evaluate, exItp, callPoint, blendPoint, findIndices, findIndex,
      searchsorted, normDist, evaluateLinear, cornerIndices, cornerWeight,
      outOfBounds, firstOOBDim, exVals, List.range_succ, List.find?]
  · norm_num [evaluate, exItp, callPoint, blendPoint, findIndices, findIndex,
      searchsorted, normDist, evaluateLinear, cornerIndices, cornerWeight,
      outOfBounds, firstOOBDim, exVals, List.range_succ, List.find?]
  · norm_num [evaluate, exItp, callPoint, blendPoint, findIndices, findIndex,
      searchsorted, normDist, evaluateLinear, cornerIndices, cornerWeight,
      outOfBounds, firstOOBDim, exVals, List.range_succ, List.find?]

/-- C2 witness: the blend formula instantiated on the 1-D example cell. -/
theorem c2_corner_blend_witness :
    (([(1:ℚ)] : List ℚ).length = ([0] : List ℕ).length) ∧
    evaluateLinear exVals [0] [(1:ℚ)] = specBlend exVals [0] [(1:ℚ)] :=
  ⟨rfl, c2_corner_blend.1 ℚ exVals [0] [(1:ℚ)] rfl⟩

/-- C3 counterexample: on axis `[0, 1, 2]` the in-bounds query `x = 1` (an
interior node) is assigned cell `i = 0`, for which `x < axis[i + 1]` fails:
the locator brackets nodes with `t = 1` in the left cell, not half-open. -/
theorem c3_halfopen_counterexample :
    ¬ (([0, 1, 2] : Axis).getD (findIndex [0, 1, 2] 1) 0 ≤ 1 ∧
       (1 : ℚ) < ([0, 1, 2] : Axis).getD (findIndex [0, 1, 2] 1 + 1) 0) := by
  decide

/-- C3 (amended): for every in-bounds query on a sorted axis of length
`m ≥ 2` the locator returns a cell index `i ≤ m - 2` with
`axis[i] ≤ x ≤ axis[i + 1]` (closed bracket: an exact node lands on the
right edge of the left cell) and `t ∈ [0, 1]`; every query, in-bounds or
not, is clamped to a valid cell index. -/
theorem c3_index_locator (g : Axis) (hs : axisSorted g) (h2 : 2 ≤ g.length)
    (x : ℚ) :
    findIndex g x ≤ g.length - 2 ∧
    (g.getD 0 0 ≤ x → x ≤ g.getD (g.length - 1) 0 →
      g.getD (findIndex g x) 0 ≤ x ∧ x ≤ g.getD (findIndex g x + 1) 0 ∧
      0 ≤ normDist g x (findIndex g x) ∧ normDist g x (findIndex g x) ≤ 1) := by
  refine ⟨findIndex_le g x, fun hlo hhi => ?_⟩
  obtain ⟨h1, h2'⟩ := findIndex_cell hs h2 hlo hhi
  obtain ⟨h3, h4⟩ := normDist_unit hs h2 hlo hhi
  exact ⟨h1, h2', h3, h4⟩

/-- C3 witness: the amended locator contract at axis `[0, 1, 2]`, `x = 1`. -/
theorem c3_index_locator_witness :
    axisSorted [(0:ℚ), 1, 2] ∧ 2 ≤ ([(0:ℚ), 1, 2] : Axis).length ∧
    (findIndex [(0:ℚ), 1, 2] 1 ≤ 1 ∧
     (([(0:ℚ), 1, 2] : Axis).getD 0 0 ≤ 1 → (1:ℚ) ≤ ([(0:ℚ), 1, 2] : Axis).getD 2 0 →
       ([(0:ℚ), 1, 2] : Axis).getD (findIndex [(0:ℚ), 1, 2] 1) 0 ≤ 1 ∧
       (1:ℚ) ≤ ([(0:ℚ), 1, 2] : Axis).getD (findIndex [(0:ℚ), 1, 2] 1 + 1) 0 ∧
       0 ≤ normDist [(0:ℚ), 1, 2] 1 (findIndex [(0:ℚ), 1, 2] 1) ∧
       normDist [(0:ℚ), 1, 2] 1 (findIndex [(0:ℚ), 1, 2] 1) ≤ 1)) :=
  ⟨by decide, by decide, c3_index_locator [0, 1, 2] (by decide) (by decide) 1⟩

/-- C4: with `bounds_error=True`, `Evaluate` fails with `OutOfDomain` iff
some query coordinate is strictly outside `[axis[0], axis[-1]]` on some
dimension; the named dimension has an offending point; and when nothing is
out of bounds the call blends every point. -/
theorem c4_bounds_error {V : Type} [AddCommMonoid V] [Module ℚ V]
    (itp : Interp V) (hbe : itp.boundsError = true)
    (xs : List (List ℚ)) (hlen : ∀ x ∈ xs, x.length = itp.grid.length) :
    ((∃ d, evaluate itp xs = .error (.OutOfDomain d)) ↔
      ∃ x ∈ xs, ∃ j < itp.grid.length, strictlyOutsideDim itp.grid x j) ∧
    (∀ d, evaluate itp xs = .error (.OutOfDomain d) →
      ∃ x ∈ xs, strictlyOutsideDim itp.grid x d) ∧
    ((∀ j < itp.grid.length, ∀ x ∈ xs, ¬ strictlyOutsideDim itp.grid x j) →
      evaluate itp xs = .ok (xs.map (callPoint itp))) := by
  have h1 : xs.any (fun x => decide (x.length ≠ itp.grid.length)) = false := by
    rw [List.any_eq_false]
    intro x hx
    simp [hlen x hx]
  cases hfo : firstOOBDim itp.grid xs with
  | some i =>
    have hev : evaluate itp xs = .error (.OutOfDomain i) := by
      unfold evaluate
      rw [h1]
      simp only [Bool.false_eq_true, if_false, hbe, if_true, hfo]
    obtain ⟨hi, x, hx, hout⟩ := firstOOBDim_some hfo
    refine ⟨⟨fun _ => ⟨x, hx, i, hi, hout⟩, fun _ => ⟨i, hev⟩⟩, ?_, ?_⟩
    · intro d hd
      rw [hev] at hd
      simp only [Except.error.injEq, EvalError.OutOfDomain.injEq] at hd
      subst hd
      exact ⟨x, hx, hout⟩
    · intro hnone
      exact absurd hout (hnone i hi x hx)
  | none =>
    have hev : evaluate itp xs = .ok (xs.map (callPoint itp)) := by
      unfold evaluate
      rw [h1]
      simp only [Bool.false_eq_true, if_false, hbe, if_true, hfo]
    have hnone := (firstOOBDim_eq_none _ _).mp hfo
    refine ⟨⟨?_, ?_⟩, ?_, fun _ => hev⟩
    · rintro ⟨d, hd⟩
      rw [hev] at hd
      exact absurd hd (by simp)
    · rintro ⟨x, hx, j, hj, hout⟩
      exact absurd hout (hnone j hj x hx)
    · intro d hd
      rw [hev] at hd
      exact absurd hd (by simp)

/-- C4 witness: querying `x = 10` on a grid spanning `[0, 5]` with
`bounds_error=True` fails with `OutOfDomain`. -/
theorem c4_bounds_error_witness :
    exItpE.boundsError = true ∧
    (∀ x ∈ [[(10:ℚ)]], x.length = exItpE.grid.length) ∧
    ((∃ d, evaluate exItpE [[(10:ℚ)]] = .error (.OutOfDomain d)) ↔
      ∃ x ∈ [[(10:ℚ)]], ∃ j < exItpE.grid.length,
        strictlyOutsideDim exItpE.grid x j) :=
  ⟨rfl, by decide, (c4_bounds_error exItpE rfl [[(10:ℚ)]] (by decide)).1⟩

/-- C5: with `bounds_error=False` and a constant fill value, every point
strictly outside the domain on at least one axis gets exactly the constant,
and every in-bounds point keeps its blended result. -/
theorem c5_fill_constant {V : Type} [AddCommMonoid V] [Module ℚ V]
    (itp : Interp V) (c : V) (hbe : itp.boundsError = false)
    (hfv : itp.fillValue = some c)
    (xs : List (List ℚ)) (hlen : ∀ x ∈ xs, x.length = itp.grid.length) :
    evaluate itp xs = .ok (xs.map (callPoint itp)) ∧
    ∀ x ∈ xs,
      ((∃ j < itp.grid.length, strictlyOutsideDim itp.grid x j) →
        callPoint itp x = c) ∧
      ((∀ j < itp.grid.length, ¬ strictlyOutsideDim itp.grid x j) →
        callPoint itp x = blendPoint itp x) := by
  have h1 : xs.any (fun x => decide (x.length ≠ itp.grid.length)) = false := by
    rw [List.any_eq_false]
    intro x hx
    simp [hlen x hx]
  constructor
  · unfold evaluate
    rw [h1]
    simp only [Bool.false_eq_true, if_false, hbe]
  · intro x hx
    constructor
    · rintro ⟨j, hj, hout⟩
      rw [callPoint, hfv, hbe]
      rw [(outOfBounds_iff (hlen x hx)).mpr ⟨j, hj, hout⟩]
      rfl
    · intro hin
      rw [callPoint, hfv, hbe]
      have hoob : outOfBounds itp.grid x = false := by
        rw [Bool.eq_false_iff]
        intro h
        obtain ⟨j, hj, hout⟩ := (outOfBounds_iff (hlen x hx)).mp h
        exact hin j hj hout
      rw [hoob]
      rfl

/-- C5 witness: querying `x = 10` on `[0, 5]` with fill value `-1` returns
exactly `-1`. -/
theorem c5_fill_constant_witness :
    ((⟨[[0, 5]], fun _ => 0, false, some (-1)⟩ : Interp ℚ).boundsError = false) ∧
    ((⟨[[0, 5]], fun _ => 0, false, some (-1)⟩ : Interp ℚ).fillValue = some (-1)) ∧
    (∀ x ∈ [[(10:ℚ)]],
      x.length = (⟨[[0, 5]], fun _ => 0, false, some (-1)⟩ : Interp ℚ).grid.length) ∧
    evaluate (⟨[[0, 5]], fun _ => 0, false, some (-1)⟩ : Interp ℚ) [[(10:ℚ)]] =
      .ok ([[(10:ℚ)]].map (callPoint (⟨[[0, 5]], fun _ => 0, false, some (-1)⟩ : Interp ℚ))) :=
  ⟨rfl, rfl, by decide,
    (c5_fill_constant (⟨[[0, 5]], fun _ => 0, false, some (-1)⟩ : Interp ℚ)
      (-1) rfl rfl [[(10:ℚ)]] (by decide)).1⟩

/-- C6: with `bounds_error=False` and no fill value, no result is
overwritten — every point, in or out of bounds, receives the raw blend from
its clamped cell — and strictly out-of-bounds coordinates have normalized
distance outside `[0, 1]` (negative below the domain, above `1` beyond it). -/
theorem c6_extrapolate {V : Type} [AddCommMonoid V] [Module ℚ V]
    (itp : Interp V) (hbe : itp.boundsError = false)
    (hfv : itp.fillValue = none)
    (xs : List (List ℚ)) (hlen : ∀ x ∈ xs, x.length = itp.grid.length) :
    evaluate itp xs = .ok (xs.map (blendPoint itp)) ∧
    (∀ (g : Axis), axisSorted g → 2 ≤ g.length → ∀ x : ℚ,
      (x < g.getD 0 0 → normDist g x (findIndex g x) < 0) ∧
      (g.getD (g.length - 1) 0 < x → 1 < normDist g x (findIndex g x))) := by
  have h1 : xs.any (fun x => decide (x.length ≠ itp.grid.length)) = false := by
    rw [List.any_eq_false]
    intro x hx
    simp [hlen x hx]
  constructor
  · unfold evaluate
    rw [h1]
    simp only [Bool.false_eq_true, if_false, hbe]
    congr 1
    refine List.map_congr_left ?_
    intro x _
    rw [callPoint, hfv]
  · intro g hs h2 x
    constructor
    · intro hx
      obtain ⟨hi, ht⟩ := findIndex_below hs h2 hx
      rw [hi]
      exact ht
    · intro hx
      obtain ⟨hi, ht⟩ := findIndex_above hs h2 hx
      rw [hi]
      exact ht

/-- C6 witness: with no fill value the same out-of-bounds query is blended
(extrapolated), not overwritten. -/
theorem c6_extrapolate_witness :
    ((⟨[[0, 5]], fun _ => 0, false, none⟩ : Interp ℚ).boundsError = false) ∧
    ((⟨[[0, 5]], fun _ => 0, false, none⟩ : Interp ℚ).fillValue = none) ∧
    (∀ x ∈ [[(10:ℚ)]],
      x.length = (⟨[[0, 5]], fun _ => 0, false, none⟩ : Interp ℚ).grid.length) ∧
    evaluate (⟨[[0, 5]], fun _ => 0, false, none⟩ : Interp ℚ) [[(10:ℚ)]] =
      .ok ([[(10:ℚ)]].map (blendPoint (⟨[[0, 5]], fun _ => 0, false, none⟩ : Interp ℚ))) :=
  ⟨rfl, rfl, by decide,
    (c6_extrapolate (⟨[[0, 5]], fun _ => 0, false, none⟩ : Interp ℚ)
      rfl rfl [[(10:ℚ)]] (by decide)).1⟩

/-- For a query inside the closed domain on every axis, every normalized
distance produced by the index search lies in `[0, 1]`. -/
theorem findIndices_snd_unit {grid : List Axis} {x : List ℚ}
    (hvalid : ∀ g ∈ grid, axisSorted g ∧ 2 ≤ g.length)
    (hlen : x.length = grid.length)
    (hin : ∀ j < grid.length, (grid.getD j []).getD 0 0 ≤ x.getD j 0 ∧
      x.getD j 0 ≤ (grid.getD j []).getD ((grid.getD j []).length - 1) 0) :
    ∀ t ∈ (findIndices grid x).map Prod.snd, 0 ≤ t ∧ t ≤ 1 := by
  intro t ht
  rw [List.mem_map] at ht
  obtain ⟨pr, hpr, hsnd⟩ := ht
  rw [findIndices, List.mem_map] at hpr
  obtain ⟨pg, hpg, hf⟩ := hpr
  obtain ⟨n, hn, hpn⟩ := List.mem_iff_getElem.mp hpg
  have hng : n < grid.length := by
    rw [List.length_zip] at hn
    omega
  have hnx : n < x.length := by omega
  rw [List.getElem_zip] at hpn
  obtain ⟨hs, h2⟩ := hvalid grid[n] (List.getElem_mem hng)
  have hbd := hin n hng
  rw [List.getD_eq_getElem grid [] hng, List.getD_eq_getElem x 0 hnx] at hbd
  subst hpn
  subst hf
  simp only at hsnd
  subst hsnd
  exact normDist_unit hs h2 hbd.1 hbd.2

/-- C7: a query strictly inside the domain on every axis evaluates, under
any bounds policy, to a blend lying componentwise (over the trailing value
dimensions `γ`) between any bounds enclosing the 2^N corner values of its
cell — in particular between their minimum and maximum. -/
theorem c7_convex_hull {γ : Type} (itp : Interp (γ → ℚ))
    (hvalid : ∀ g ∈ itp.grid, axisSorted g ∧ 2 ≤ g.length)
    (x : List ℚ) (hlen : x.length = itp.grid.length)
    (hin : ∀ j < itp.grid.length,
      (itp.grid.getD j []).getD 0 0 < x.getD j 0 ∧
      x.getD j 0 < (itp.grid.getD j []).getD ((itp.grid.getD j []).length - 1) 0)
    (b : γ) (lo hi : ℚ)
    (hc : ∀ e ∈ cornerIndices ((findIndices itp.grid x).map Prod.fst),
      lo ≤ itp.values e b ∧ itp.values e b ≤ hi) :
    evaluate itp [x] = .ok [callPoint itp x] ∧
    lo ≤ callPoint itp x b ∧ callPoint itp x b ≤ hi := by
  have hnout : ∀ j < itp.grid.length, ¬ strictlyOutsideDim itp.grid x j := by
    intro j hj hout
    obtain ⟨hl, hr⟩ := hin j hj
    rcases hout with h | h
    · exact absurd h (not_lt.mpr (le_of_lt hl))
    · exact absurd h (not_lt.mpr (le_of_lt hr))
  have hoob : outOfBounds itp.grid x = false := by
    rw [Bool.eq_false_iff]
    intro h
    obtain ⟨j, hj, hout⟩ := (outOfBounds_iff hlen).mp h
    exact hnout j hj hout
  have hcp : callPoint itp x = blendPoint itp x := by
    cases hfv : itp.fillValue with
    | none => rw [callPoint, hfv]
    | some c =>
      rw [callPoint, hfv, hoob, Bool.and_false]
      simp only [Bool.false_eq_true, if_false]
  have hev : evaluate itp [x] = .ok [callPoint itp x] := by
    rw [evaluate_passes itp [x]
      (by intro y hy; rw [List.mem_singleton] at hy; subst hy; exact hlen)
      (by intro j hj y hy; rw [List.mem_singleton] at hy; subst hy; exact hnout j hj),
      List.map_singleton]
  refine ⟨hev, ?_⟩
  rw [hcp, blendPoint, evaluateLinear_apply]
  refine evaluateLinear_bounds _ _ _ lo hi ?_ ?_ hc
  · rw [List.length_map, List.length_map]
  · exact findIndices_snd_unit hvalid hlen (fun j hj =>
      ⟨le_of_lt (hin j hj).1, le_of_lt (hin j hj).2⟩)

/-- C7 witness: on axis `[0, 1, 2]` with values `[0, 10, 20]` (constant in
the trailing dimension), the result at the interior point `x = 1` lies
between the surrounding corner values `0` and `10`. -/
theorem c7_convex_hull_witness :
    (∀ g ∈ ([[0, 1, 2]] : List Axis), axisSorted g ∧ 2 ≤ g.length) ∧
    (([(1:ℚ)] : List ℚ).length = ([[0, 1, 2]] : List Axis).length) ∧
    (∀ j < ([[0, 1, 2]] : List Axis).length,
      (([[0, 1, 2]] : List Axis).getD j []).getD 0 0 < ([(1:ℚ)] : List ℚ).getD j 0 ∧
      ([(1:ℚ)] : List ℚ).getD j 0 <
        (([[0, 1, 2]] : List Axis).getD j []).getD
          ((([[0, 1, 2]] : List Axis).getD j []).length - 1) 0) ∧
    (0 ≤ callPoint (⟨[[0, 1, 2]], fun e _ => exVals e, true, none⟩ : Interp (Unit → ℚ)) [1] () ∧
     callPoint (⟨[[0, 1, 2]], fun e _ => exVals e, true, none⟩ : Interp (Unit → ℚ)) [1] () ≤ 10) :=
  ⟨by decide, rfl, by decide,
    (c7_convex_hull (⟨[[0, 1, 2]], fun e _ => exVals e, true, none⟩ : Interp (Unit → ℚ))
      (by decide) [1] rfl (by decide) () 0 10 (by decide)).2⟩

/-- C8: construction on any input with a non-strictly-ascending axis array
never produces an interpolator, and when the preceding checks pass it fails
precisely with `NonMonotonicAxis` at that axis. -/
theorem c8_nonmonotonic_axis (points : List PointArr) (shape : List ℕ)
    (dt : DType) (fill : Option DType) (p : PointArr)
    (hp : p ∈ points) (hmono : ¬ p.strictAsc = true) :
    (∀ u, init points shape dt fill ≠ .ok u) ∧
    (∀ pre post, points = pre ++ p :: post →
      points.length ≤ shape.length →
      (∀ fdt, fill = some fdt →
        canCastSameKind fdt (if dt.isInexact then dt else DType.float) = true) →
      checkAxes shape 0 pre = .ok () →
      init points shape dt fill = .error (.NonMonotonicAxis pre.length)) := by
  constructor
  · intro u
    by_cases hdim : points.length > shape.length
    · unfold init
      rw [if_pos hdim]
      simp
    · cases fill with
      | none =>
        rw [init_fill_none points shape dt hdim]
        exact checkAxes_no_ok shape points 0 p hp hmono u
      | some fdt =>
        rw [init_fill_some points shape dt fdt hdim]
        by_cases hcast :
            ¬ canCastSameKind fdt (if dt.isInexact then dt else DType.float) = true
        · rw [if_pos hcast]
          simp
        · rw [if_neg hcast]
          exact checkAxes_no_ok shape points 0 p hp hmono u
  · intro pre post hsplit hdim hfill hpre
    have hrest : checkAxes shape 0 points = .error (.NonMonotonicAxis pre.length) := by
      rw [hsplit, checkAxes_append shape pre 0 hpre, Nat.zero_add, checkAxes,
        if_pos hmono]
    have hdim' : ¬ points.length > shape.length := not_lt.mpr hdim
    cases hf : fill with
    | none =>
      rw [init_fill_none points shape dt hdim']
      exact hrest
    | some fdt =>
      rw [init_fill_some points shape dt fdt hdim',
        if_neg (not_not_intro (hfill fdt hf))]
      exact hrest

/-- C8 witness: `axes = [3, 1, 2]` fails construction with
`NonMonotonicAxis 0`. -/
theorem c8_nonmonotonic_axis_witness :
    (PointArr.d1 [3, 1, 2] ∈ [PointArr.d1 [3, 1, 2]]) ∧
    (¬ (PointArr.d1 [3, 1, 2]).strictAsc = true) ∧
    init [PointArr.d1 [3, 1, 2]] [3] DType.float none =
      .error (.NonMonotonicAxis 0) :=
  ⟨by decide, by decide,
    (c8_nonmonotonic_axis [PointArr.d1 [3, 1, 2]] [3] DType.float none
      (PointArr.d1 [3, 1, 2]) (by decide) (by decide)).2 [] []
      rfl (by decide) (fun fdt h => Option.noConfusion h) rfl⟩

/-- C9: `Evaluate` is deterministic — the embedded call is a pure function
of the interpolator's stored state and the query, so identical queries on
the same unmodified interpolator give identical results. -/
theorem c9_deterministic {V : Type} [AddCommMonoid V] [Module ℚ V]
    (itp : Interp V) (xs ys : List (List ℚ)) (h : xs = ys) :
    evaluate itp xs = evaluate itp ys :=
  congrArg (evaluate itp) h

/-- C9 witness: two identical queries on the worked example agree. -/
theorem c9_deterministic_witness :
    ([[(1:ℚ)]] = [[(1:ℚ)]]) ∧
    evaluate exItp [[(1:ℚ)]] = evaluate exItp [[(1:ℚ)]] :=
  ⟨rfl, c9_deterministic exItp [[(1:ℚ)]] [[(1:ℚ)]] rfl⟩

/-- C10: the constructor's checks run in a fixed order — the axis-count
check first, then the fill-value compatibility check, then the per-axis
checks in increasing axis order with strict ascent before rank-1 before
length match; in particular an incompatible fill value combined with a
non-monotonic axis reports `IncompatibleFillValue`. -/
theorem c10_check_order (points : List PointArr) (shape : List ℕ)
    (dt : DType) (fill : Option DType) :
    (points.length > shape.length →
      init points shape dt fill = .error .DimensionMismatch) ∧
    (points.length ≤ shape.length →
      ∀ fdt, fill = some fdt →
      ¬ canCastSameKind fdt (if dt.isInexact then dt else DType.float) = true →
      init points shape dt fill = .error .IncompatibleFillValue) ∧
    (points.length ≤ shape.length →
      (∀ fdt, fill = some fdt →
        canCastSameKind fdt (if dt.isInexact then dt else DType.float) = true) →
      ∀ pre q post, points = pre ++ q :: post →
      checkAxes shape 0 pre = .ok () →
      ((¬ q.strictAsc = true →
          init points shape dt fill = .error (.NonMonotonicAxis pre.length)) ∧
       (q.strictAsc = true → q.ndim ≠ 1 →
          init points shape dt fill = .error (.MalformedAxis pre.length)) ∧
       (q.strictAsc = true → q.ndim = 1 → shape.getD pre.length 0 ≠ q.len →
          init points shape dt fill = .error (.ShapeMismatch pre.length)))) := by
  have hloop : points.length ≤ shape.length →
      (∀ fdt, fill = some fdt →
        canCastSameKind fdt (if dt.isInexact then dt else DType.float) = true) →
      init points shape dt fill = checkAxes shape 0 points := by
    intro hdim hfill
    have hdim' : ¬ points.length > shape.length := not_lt.mpr hdim
    cases hf : fill with
    | none => exact init_fill_none points shape dt hdim'
    | some fdt =>
      rw [init_fill_some points shape dt fdt hdim',
        if_neg (not_not_intro (hfill fdt hf))]
  refine ⟨?_, ?_, ?_⟩
  · intro hdim
    unfold init
    rw [if_pos hdim]
  · intro hdim fdt hf hcast
    rw [hf, init_fill_some points shape dt fdt (not_lt.mpr hdim), if_pos hcast]
  · intro hdim hfill pre q post hsplit hpre
    have hbase : init points shape dt fill =
        checkAxes shape pre.length (q :: post) := by
      rw [hloop hdim hfill, hsplit, checkAxes_append shape pre 0 hpre,
        Nat.zero_add]
    refine ⟨?_, ?_, ?_⟩
    · intro hmono
      rw [hbase, checkAxes, if_pos hmono]
    · intro hmono hndim
      rw [hbase, checkAxes, if_neg (by simpa using hmono), if_pos hndim]
    · intro hmono hndim hlen
      rw [hbase, checkAxes, if_neg (by simpa using hmono),
        if_neg (by simpa using hndim), if_pos hlen]

/-- C10 witness: a complex fill value on float values combined with the
non-monotonic axis `[3, 1, 2]` fails with `IncompatibleFillValue`, not
`NonMonotonicAxis`. -/
theorem c10_check_order_witness :
    (([PointArr.d1 [3, 1, 2]] : List PointArr).length ≤ ([3] : List ℕ).length) ∧
    ((some DType.complex : Option DType) = some DType.complex) ∧
    (¬ canCastSameKind DType.complex
        (if DType.float.isInexact then DType.float else DType.float) = true) ∧
    init [PointArr.d1 [3, 1, 2]] [3] DType.float (some DType.complex) =
      .error .IncompatibleFillValue :=
  ⟨by decide, rfl, by decide,
    (c10_check_order [PointArr.d1 [3, 1, 2]] [3] DType.float
      (some DType.complex)).2.1 (by decide) DType.complex rfl (by decide)⟩

end Interpolator
